import Mathlib

/-!
Verification development for the EDGAR reference-index and filing-enrichment
service. The TypeScript route handlers are shallowly embedded as executable
Lean functions over `List Char` strings; JavaScript strings become `Str`,
regex scans become explicit scanners, floating point amounts become `Rat`,
and the stateful cache becomes explicit state passing. Definitions are
transcribed from the route sources (lookup route, suggest route, filings
route); theorems check the specification document against them.
-/

namespace Edgar

/-! Definitions: the shallow embedding of the route sources. -/

/-- JavaScript strings are modelled as lists of characters. -/
abbrev Str := List Char

/-- Whitespace characters recognised by the JS regex class \s and by trim
(modelled for the ASCII range). -/
def wsChars : List Char := [' ', '\t', '\n', '\r', '\x0b', '\x0c']

/-- Boolean whitespace test. -/
def isWsB (c : Char) : Bool := wsChars.contains c

/-- Boolean decimal-digit test, as in the JS classes [0-9] and \d. -/
def isDigitB (c : Char) : Bool := decide ('0' ≤ c ∧ c ≤ '9')

/-- Lower-case to upper-case letter table (ASCII model of the JS
toUpperCase / toLowerCase pair). -/
def upMap : List (Char × Char) :=
  [('a', 'A'), ('b', 'B'), ('c', 'C'), ('d', 'D'), ('e', 'E'), ('f', 'F'),
   ('g', 'G'), ('h', 'H'), ('i', 'I'), ('j', 'J'), ('k', 'K'), ('l', 'L'),
   ('m', 'M'), ('n', 'N'), ('o', 'O'), ('p', 'P'), ('q', 'Q'), ('r', 'R'),
   ('s', 'S'), ('t', 'T'), ('u', 'U'), ('v', 'V'), ('w', 'W'), ('x', 'X'),
   ('y', 'Y'), ('z', 'Z')]

/-- Upper-case one character (ASCII model of JS toUpperCase). -/
def jsUpperChar (c : Char) : Char :=
  match upMap.find? (fun p => p.1 = c) with
  | some p => p.2
  | none => c

/-- Lower-case one character (ASCII model of JS toLowerCase). -/
def jsLowerChar (c : Char) : Char :=
  match upMap.find? (fun p => p.2 = c) with
  | some p => p.1
  | none => c

/-- Model of JS String.prototype.toUpperCase. -/
def jsUpper (s : Str) : Str := s.map jsUpperChar

/-- Model of JS String.prototype.toLowerCase. -/
def jsLower (s : Str) : Str := s.map jsLowerChar

/-- Model of JS String.prototype.trim: drop whitespace from both ends. -/
def jsTrim (s : Str) : Str :=
  ((s.dropWhile isWsB).reverse.dropWhile isWsB).reverse

/-- Source: u.replace of every dot by the empty string. -/
def removeDots (s : Str) : Str := s.filter (fun c => c ≠ '.')

/-- Source: u.replace of every dot by a dash. -/
def dotsToDash (s : Str) : Str := s.map (fun c => if c = '.' then '-' else c)

/-- Character kept by the plain-key filter: neither dot nor dash. -/
def plainCharB (c : Char) : Bool := c ≠ '.' && c ≠ '-'

/-- Source: v.replace removing every dot and dash, the plain key form. -/
def plainFilter (s : Str) : Str := s.filter plainCharB

/-- Model of JS String.prototype.padStart with the zero character. -/
def padStartZero (n : ℕ) (s : Str) : Str :=
  List.replicate (n - s.length) '0' ++ s

/-- Source pad10: strip every non-digit, then left-pad with zeros to 10. -/
def pad10 (s : Str) : Str := padStartZero 10 (s.filter isDigitB)

/-- Source zeroPadCIK in the filings route: pad the raw parameter to 10
without stripping or validating digits. -/
def zeroPadCIK (s : Str) : Str := padStartZero 10 s

/-- Helper for the JS Set insertion-order semantics: keep the first
occurrence of each element. -/
def dedupeFirstAux (seen : List Str) : List Str → List Str
  | [] => []
  | x :: xs =>
    if x ∈ seen then dedupeFirstAux seen xs
    else x :: dedupeFirstAux (x :: seen) xs

/-- Array.from over a JS Set built by insertion: first occurrence wins. -/
def dedupeFirst (l : List Str) : List Str := dedupeFirstAux [] l

/-- Source norms: upper-case and trim, then the raw, dot-free, dash and
plain variants, deduplicated in insertion order. -/
def norms (sym : Str) : List Str :=
  let u := jsTrim (jsUpper sym)
  let nodots := removeDots u
  let dash := dotsToDash u
  let plain := plainFilter u
  dedupeFirst [u, nodots, dash, plain]

/-- The registry row produced by the index builder. -/
structure Row where
  ticker : Str
  cik : Str
  name : Str
deriving DecidableEq

/-- JS Map.set guarded by Map.has: insert only when the key is absent,
keeping insertion order. -/
def insertIfAbsent (m : List (Str × Row)) (k : Str) (r : Row) : List (Str × Row) :=
  if m.any (fun e => e.1 = k) then m else m ++ [(k, r)]

/-- Source push closure in the merge step: claim every plain key of every
variant of the ticker, first claim wins. -/
def pushRow (m : List (Str × Row)) (r : Row) : List (Str × Row) :=
  (norms r.ticker).foldl (fun m n => insertIfAbsent m (plainFilter n) r) m

/-- Source merge of the two registry sources: the secondary (broader)
array is inserted before the primary array. -/
def buildIndex (arr2 arr1 : List Row) : List (Str × Row) :=
  (arr1.foldl pushRow (arr2.foldl pushRow []))

/-- Map lookup by key. -/
def lookupKey (m : List (Str × Row)) (k : Str) : Option Row :=
  (m.find? (fun e => e.1 = k)).map (fun e => e.2)

/-- Array.from of the map values, in insertion order. -/
def rowsOfIndex (m : List (Str × Row)) : List Row := m.map (fun e => e.2)

/-- The plain keys a row claims in the merge map. -/
def keysOf (r : Row) : List Str := (norms r.ticker).map plainFilter

/-- Outcome of one fetch attempt, as seen by the retry loop of fetchJSON:
a transport error, a non-ok status, an ok response whose body fails to
parse as JSON, or an ok response with a parsed body (abstracted to a
number). -/
inductive AttemptResult where
  | transportError
  | badStatus
  | okParseFail
  | okJson (v : ℕ)
deriving DecidableEq

/-- Whether the attempt produced a parsed body. -/
def AttemptResult.isSuccess : AttemptResult → Bool
  | .okJson _ => true
  | _ => false

/-- Source fetchJSON retry loop, from attempt index i with the given fuel.
Every non-success arm is caught by the catch block and retried: the source
writes return await r.json() inside the try, so a JSON parse rejection of
an ok response is caught exactly like a transport error or a bad status.
Returns the result and the number of attempts consumed. -/
def runFetchFrom (outcomes : ℕ → AttemptResult) : ℕ → ℕ → Except Unit ℕ × ℕ
  | i, 0 => (Except.error (), i)
  | i, fuel + 1 =>
    match outcomes i with
    | AttemptResult.okJson v => (Except.ok v, i + 1)
    | _ => runFetchFrom outcomes (i + 1) fuel

/-- Source fetchJSON: up to 4 attempts starting at attempt 0. -/
def fetchJSONModel (outcomes : ℕ → AttemptResult) : Except Unit ℕ × ℕ :=
  runFetchFrom outcomes 0 4

/-- The freshness window of the index caches, one hour in milliseconds. -/
def TTL_MS : ℕ := 60 * 60 * 1000

/-- In-process cache state of the lookup route: the CACHE and LAST
globals. none models the initial null CACHE. -/
structure MemCache where
  cache : Option (List Row)
  last : ℕ
deriving DecidableEq

/-- Source loadAll, cache logic only: if CACHE is set and the window has
not elapsed, return it; otherwise run the builder (its result is the
build argument), store it and stamp LAST. The Bool records whether the
builder ran. Nat subtraction agrees with the JS comparison: a clock that
went backwards still counts as fresh on both sides. -/
def loadAllStep (st : MemCache) (now : ℕ) (build : List Row) :
    List Row × MemCache × Bool :=
  match st.cache with
  | some rows =>
    if now - st.last < TTL_MS then (rows, st, false)
    else (build, ⟨some build, now⟩, true)
  | none => (build, ⟨some build, now⟩, true)

/-- External key-value tier state: whether credentials are configured, and
the stored row list with its store time. -/
structure KVState where
  configured : Bool
  slot : Option (List Row × ℕ)
deriving DecidableEq

/-- Modelled from the spec: the external key-value store itself is not in
the repository; per the spec it returns the stored serialized list while
its ttl has not expired and treats absent credentials as always-absent.
kvGet also returns none on any fetch or parse failure, collapsed here
into the absent cases. -/
def kvGetM (kv : KVState) (now : ℕ) : Option (List Row) :=
  if kv.configured then
    match kv.slot with
    | some (rows, at0) => if now - at0 < TTL_MS then some rows else none
    | none => none
  else none

/-- Source kvSet: store best-effort when configured, no-op otherwise. -/
def kvSetM (kv : KVState) (rows : List Row) (now : ℕ) : KVState :=
  if kv.configured then ⟨true, some (rows, now)⟩ else kv

/-- Source loadIndex, cache logic only: return the KV-cached list when it
is present and non-empty (the source checks cached and cached.length),
otherwise build, store to KV and return. There is no in-process tier in
this revision. -/
def loadIndexStep (kv : KVState) (now : ℕ) (build : List Row) :
    List Row × KVState × Bool :=
  match kvGetM kv now with
  | some rows =>
    if rows.isEmpty then (build, kvSetM kv build now, true)
    else (rows, kv, false)
  | none => (build, kvSetM kv build now, true)

/-- A sample row for the concrete cache runs. -/
def rowA : Row := ⟨"A".toList, "0000000001".toList, "A CO".toList⟩

/-- The plain key of the trimmed upper-cased symbol. This is the single
key every variant of the symbol collapses to. -/
def queryKey (s : Str) : Str := plainFilter (jsTrim (jsUpper s))

/-- The numeric-query test of the lookup route, the regex of one to ten
digits anchored at both ends. -/
def isNumeric1to10 (s : Str) : Bool :=
  s.all isDigitB && decide (1 ≤ s.length) && decide (s.length ≤ 10)

/-- JS String.prototype.includes. -/
def containsSub (needle hay : Str) : Bool := decide (needle <:+: hay)

/-- Tier-2 row predicate of the lookup route: some plain variant of the
row ticker lies in the plain-key set of the query. -/
def tickerMatches (qPlainSet : List Str) (x : Row) : Bool :=
  ((norms x.ticker).map plainFilter).any (fun v => decide (v ∈ qPlainSet))

/-- Source GET of the lookup route, the resolution pipeline: trim, reject
the empty query, then the numeric CIK tier, the ticker-variant tier, the
name-prefix tier and the name-substring tier, first hit wins. -/
def resolve (list : List Row) (qraw : Str) : Option Row :=
  let q := jsTrim qraw
  if q = [] then none
  else
    match (if isNumeric1to10 q then list.find? (fun r => r.cik = pad10 q) else none) with
    | some r => some r
    | none =>
      let qPlainSet := (norms q).map plainFilter
      match list.find? (tickerMatches qPlainSet) with
      | some r => some r
      | none =>
        match list.find? (fun x => (jsUpper q).isPrefixOf (jsUpper x.name)) with
        | some r => some r
        | none => list.find? (fun x => containsSub (jsUpper q) (jsUpper x.name))

/-- Concrete resolver index for the counterexample: a dotted all-digit
ticker and an unrelated row whose canonical id collides with the dot-free
variant read as a numeric query. -/
def listC5 : List Row :=
  [⟨"1.2".toList, "0000009999".toList, "ONE CO".toList⟩,
   ⟨"ZZ".toList, "0000000012".toList, "Z CO".toList⟩]

/-- Source scoreRow of the suggest route: the fixed scoring table over
the plain-key ticker variants and the upper-cased company name. -/
def scoreRow (q : Str) (row : Row) : ℕ :=
  let Q := jsTrim (jsUpper q)
  let qPlain := plainFilter Q
  let tickerVars := (norms row.ticker).map plainFilter
  if qPlain ∈ tickerVars then 100
  else if tickerVars.any (fun t => qPlain.isPrefixOf t) then 90
  else if tickerVars.any (fun t => containsSub qPlain t) then 75
  else if Q.isPrefixOf (jsUpper row.name) then 65
  else if containsSub Q (jsUpper row.name) then 50
  else 0

/-- Stable insertion into a sorted list: x goes before the first element
y with le x y, so among comparator-equal elements the earlier input stays
first, matching the stable JS Array.prototype.sort. -/
def insertLe {α : Type} (le : α → α → Bool) (x : α) : List α → List α
  | [] => [x]
  | y :: ys => if le x y then x :: y :: ys else y :: insertLe le x ys

/-- Stable insertion sort; its ordering on ties is exactly the stable JS
sort, and any stable sort is determined by the comparator. -/
def sortLe {α : Type} (le : α → α → Bool) : List α → List α
  | [] => []
  | x :: xs => insertLe le x (sortLe le xs)

/-- Character-code lexicographic comparison, the model of the default
localeCompare collation on the ASCII tickers. -/
def lexLe : Str → Str → Bool
  | [], _ => true
  | _ :: _, [] => false
  | a :: as, b :: bs =>
    if a.toNat < b.toNat then true
    else if b.toNat < a.toNat then false
    else lexLe as bs

/-- Source limit clamp of the suggest route: between 10 and 300. -/
def clampLimit (limitParam : ℤ) : ℕ := (min 300 (max 10 limitParam)).toNat

/-- Source GET of the suggest route: trim, empty query gives no results,
a single-character query returns every row whose ticker or upper-cased
name starts with the character, sorted ascending by ticker; otherwise
rows are scored, filtered to positive score, sorted descending by score
and truncated to the clamped limit. -/
def suggestGET (q : Str) (limitParam : ℤ) (list : List Row) : List Row :=
  let qt := jsTrim q
  let limit := clampLimit limitParam
  if qt = [] then []
  else
    let Q := jsUpper qt
    if Q.length = 1 then
      (sortLe (fun a b => lexLe a.ticker b.ticker)
        (list.filter (fun r => Q.isPrefixOf r.ticker || Q.isPrefixOf (jsUpper r.name)))).take limit
    else
      (((sortLe (fun a b => decide (b.2 ≤ a.2))
          ((list.map (fun row => (row, scoreRow qt row))).filter
            (fun x => decide (0 < x.2)))).take limit)).map Prod.fst

/-- Concrete index for the C2 witness: an exact ticker row and a row that
matches the query AAPL only through its company name. -/
def listC2 : List Row :=
  [⟨"AAPL".toList, "0000320193".toList, "APPLE INC".toList⟩,
   ⟨"ZZZZ".toList, "0000000002".toList, "AAPL HOLDINGS".toList⟩]

/-- Digit block of the item-code regex: one or two digits, a dot, exactly
two digits, greedy on the first block as in the regex engine; the
two-digit and one-digit readings are mutually exclusive because the
character after the first digit is a digit in one and a dot in the other. -/
def matchItemDigits (s : Str) : Option (Str × Str) :=
  match s with
  | a :: b :: c :: d :: e :: rest =>
    if isDigitB a && isDigitB b && c = '.' && isDigitB d && isDigitB e then
      some ([a, b, c, d, e], rest)
    else if isDigitB a && b = '.' && isDigitB c && isDigitB d then
      some ([a, b, c, d], e :: rest)
    else none
  | a :: b :: c :: d :: rest =>
    if isDigitB a && b = '.' && isDigitB c && isDigitB d then
      some ([a, b, c, d], rest)
    else none
  | _ => none

/-- Try the item-code regex at the start of the input: the literal item
case-insensitively, one or more whitespace characters, then the digit
block. Returns the matched text verbatim and the rest of the input. -/
def tryMatchItem (s : Str) : Option (Str × Str) :=
  match s with
  | c1 :: c2 :: c3 :: c4 :: rest1 =>
    if jsLowerChar c1 = 'i' && jsLowerChar c2 = 't' && jsLowerChar c3 = 'e'
        && jsLowerChar c4 = 'm' then
      let ws := rest1.takeWhile isWsB
      if ws.isEmpty then none
      else
        match matchItemDigits (rest1.dropWhile isWsB) with
        | some (ds, rest2) => some (c1 :: c2 :: c3 :: c4 :: (ws ++ ds), rest2)
        | none => none
    else none
  | _ => none

/-- Global scan of the item-code regex: leftmost match, then continue
after the match end. Every match consumes at least nine characters, so
fuel equal to the text length never runs out. -/
def scanItems : ℕ → Str → List Str
  | 0, _ => []
  | _ + 1, [] => []
  | fuel + 1, c :: rest =>
    match tryMatchItem (c :: rest) with
    | some (m, rest2) => m :: scanItems fuel rest2
    | none => scanItems fuel rest

/-- Source detectItems: collect the matches, deduplicate them keeping
first occurrences (a JS Set of the verbatim matched strings), then map
the lower-cased codes to the two named badges. -/
def detectItems (text : Str) : List Str × List Str :=
  let found := scanItems text.length text
  let items := dedupeFirst found
  let lower := items.map jsLower
  let badges :=
    (if "item 1.01".toList ∈ lower
      then ["Material Agreement (Item 1.01)".toList] else [])
    ++ (if "item 5.02".toList ∈ lower
      then ["Executive Change (Item 5.02)".toList] else [])
  (items, badges)

/-- Scale word of the amount regex. -/
inductive UnitKind where
  | none
  | million
  | billion
  | m
  | bn
deriving DecidableEq

/-- One monetary match: integer digits with the thousands separators
already removed, fractional digits, and the scale word. -/
structure AmtMatch where
  intDigits : Str
  decDigits : Str
  unit : UnitKind
deriving DecidableEq

/-- Normalization factors of the source: 1e9 for billion and bn, 1e6 for
million and m. -/
def unitFactor : UnitKind → ℕ
  | UnitKind.billion => 1000000000
  | UnitKind.bn => 1000000000
  | UnitKind.million => 1000000
  | UnitKind.m => 1000000
  | UnitKind.none => 1

/-- Numeric value of a digit string. -/
def digitsVal (s : Str) : ℕ := s.foldl (fun a c => a * 10 + (c.toNat - 48)) 0

/-- Powers of ten as naturals. -/
def pow10 : ℕ → ℕ
  | 0 => 1
  | n + 1 => 10 * pow10 n

/-- parseFloat of the comma-stripped capture, times the unit factor: the
integer digits, plus the fractional digits over ten to their count,
written as one explicit fraction; the values in scope are exactly
representable, so the rational model agrees with the JS double
arithmetic on them. -/
def amtValue (mt : AmtMatch) : ℚ :=
  mkRat ((digitsVal mt.intDigits * pow10 mt.decDigits.length + digitsVal mt.decDigits)
      * unitFactor mt.unit)
    (pow10 mt.decDigits.length)

/-- The thousands-separator groups of the amount regex: each group is a
comma followed by exactly three digits, taken greedily. -/
def takeCommaGroups : Str → Str × Str
  | ',' :: a :: b :: c :: rest =>
    if isDigitB a && isDigitB b && isDigitB c then
      let p := takeCommaGroups rest
      (a :: b :: c :: p.1, p.2)
    else ([], ',' :: a :: b :: c :: rest)
  | s => ([], s)

/-- The optional scale word, first alternative wins as in the regex
alternation million, billion, m, bn, case-insensitively. -/
def matchUnit (s : Str) : UnitKind × Str :=
  if jsLower (s.take 7) = "million".toList then (UnitKind.million, s.drop 7)
  else if jsLower (s.take 7) = "billion".toList then (UnitKind.billion, s.drop 7)
  else if jsLower (s.take 1) = "m".toList then (UnitKind.m, s.drop 1)
  else if jsLower (s.take 2) = "bn".toList then (UnitKind.bn, s.drop 2)
  else (UnitKind.none, s)

/-- Try the amount regex at the start of the input: optional dollar sign,
optional single whitespace, one to three digits taken greedily, the
comma groups, an optional dot with at least one digit, a greedy
whitespace run and the optional scale word. Every piece after the
mandatory digits is optional and can match empty, so the greedy
left-to-right reading needs no backtracking. -/
def tryMatchAmt (s : Str) : Option (AmtMatch × Str) :=
  let s1 := match s with
    | '$' :: rest => rest
    | _ => s
  let s2 := match s1 with
    | c :: rest => if isWsB c then rest else s1
    | [] => s1
  let d1 := (s2.takeWhile isDigitB).take 3
  if d1.isEmpty then none
  else
    let s3 := s2.drop d1.length
    let grps := takeCommaGroups s3
    let decp : Str × Str := match grps.2 with
      | '.' :: rest =>
        let dr := rest.takeWhile isDigitB
        if dr.isEmpty then ([], grps.2) else (dr, rest.drop dr.length)
      | _ => ([], grps.2)
    let s6 := decp.2.dropWhile isWsB
    let u := matchUnit s6
    some (⟨d1 ++ grps.1, decp.1, u.1⟩, u.2)

/-- Global scan of the amount regex; every match consumes at least one
character, so fuel equal to the text length never runs out. -/
def scanAmts : ℕ → Str → List AmtMatch
  | 0, _ => []
  | _ + 1, [] => []
  | fuel + 1, c :: rest =>
    match tryMatchAmt (c :: rest) with
    | some (mt, rest2) => mt :: scanAmts fuel rest2
    | none => scanAmts fuel rest

/-- The loop body of extractLargestAmount: keep the running maximum,
replacing it only on a strictly larger normalized value. -/
def amtFoldStep (acc : Option ℚ) (mt : AmtMatch) : Option ℚ :=
  let num := amtValue mt
  match acc with
  | none => some num
  | some mx => if mx < num then some num else some mx

/-- Source extractLargestAmount: the running maximum of the normalized
match values, null when there is no match. -/
def extractLargestAmount (text : Str) : Option ℚ :=
  (scanAmts text.length text).foldl amtFoldStep none

/-- Outcome of the best-effort primary-document fetch for one filing. -/
inductive FetchOutcome where
  | netFail
  | notOk
  | ok (body : Str)
deriving DecidableEq

/-- One entry of the recent-filings arrays of the submissions document,
together with the outcome its primary-document fetch would have. -/
structure FilingInput where
  form : Str
  filedAt : Str
  accession : Str
  primaryDocument : Option Str
  fetch : FetchOutcome
deriving DecidableEq

/-- The filing record pushed to the output array of the filings route. -/
structure FilingOut where
  cik : Str
  company : Str
  form : Str
  filed_at : Str
  title : Str
  source_url : Str
  primary_doc_url : Option Str
  items : List Str
  badges : List Str
  amount_usd : Option ℚ
deriving DecidableEq

/-- Source isHtmlLike: the lower-cased url ends in .htm, .html or .txt. -/
def isHtmlLike (url : Str) : Bool :=
  let u := jsLower url
  ".htm".toList.isSuffixOf u || ".html".toList.isSuffixOf u
    || ".txt".toList.isSuffixOf u

/-- The markup strip of the filings route: each maximal segment from an
opening angle bracket over at least one character up to the next closing
angle bracket is replaced by one space; an unmatched opening bracket is
kept. Fuel equal to the text length never runs out since every step
consumes at least one character. -/
def stripTags : ℕ → Str → Str
  | 0, s => s
  | _ + 1, [] => []
  | fuel + 1, c :: rest =>
    if c = '<' then
      match rest.dropWhile (fun d => d ≠ '>') with
      | '>' :: rest3 =>
        if (rest.takeWhile (fun d => d ≠ '>')).isEmpty then c :: stripTags fuel rest
        else ' ' :: stripTags fuel rest3
      | _ => c :: stripTags fuel rest
    else c :: stripTags fuel rest

/-- The tag strip applied to a whole document. -/
def stripTagsAll (s : Str) : Str := stripTags s.length s

/-- Model of parseInt on the route parameter: the leading digit run after
whitespace, printed back in decimal (leading zeros dropped); NaN when no
digit leads, signs not modelled since the route passes CIK digits. -/
def jsParseIntDigits (s : Str) : Str :=
  let t := (s.dropWhile isWsB).takeWhile isDigitB
  if t.isEmpty then "NaN".toList else (Nat.repr (digitsVal t)).toList

/-- The registration-form codes that trigger amount extraction. -/
def FORMS_AMOUNT : List Str :=
  ["S-1".toList, "424B1".toList, "424B2".toList, "424B3".toList, "424B4".toList]

/-- The record of one filing with the enrichment fields left empty: what
the route pushes when the document is not textual, missing, or its fetch
fails. -/
def unenrichedRecord (cikParam name : Str) (f : FilingInput) : FilingOut :=
  let cik10 := zeroPadCIK cikParam
  let acc := f.accession.filter (fun c => c ≠ '-')
  let base := "https://www.sec.gov/Archives/edgar/data/".toList
    ++ jsParseIntDigits cikParam ++ "/".toList ++ acc
  let primaryUrl := f.primaryDocument.map (fun p => base ++ "/".toList ++ p)
  ⟨cik10, name, f.form, f.filedAt,
    name ++ " • ".toList ++ f.form ++ " • ".toList ++ f.filedAt,
    base, primaryUrl, [], [], none⟩

/-- Source loop body of the filings route GET: build the archive urls,
fetch the primary document when it looks textual, strip markup, run the
item detector on 8-K forms and the amount extractor on the registration
forms; any fetch failure leaves the enrichment fields empty. -/
def processFiling (cikParam name : Str) (f : FilingInput) : FilingOut :=
  let cik10 := zeroPadCIK cikParam
  let acc := f.accession.filter (fun c => c ≠ '-')
  let base := "https://www.sec.gov/Archives/edgar/data/".toList
    ++ jsParseIntDigits cikParam ++ "/".toList ++ acc
  let primaryUrl := f.primaryDocument.map (fun p => base ++ "/".toList ++ p)
  let enr : List Str × List Str × Option ℚ :=
    match primaryUrl with
    | some u =>
      if isHtmlLike u then
        match f.fetch with
        | FetchOutcome.ok raw =>
          let text := stripTagsAll raw
          let ib :=
            if "8-K".toList.isPrefixOf (jsUpper f.form) then detectItems text
            else ([], [])
          let amt :=
            if jsUpper f.form ∈ FORMS_AMOUNT then extractLargestAmount text
            else none
          (ib.1, ib.2, amt)
        | _ => ([], [], none)
      else ([], [], none)
    | none => ([], [], none)
  ⟨cik10, name, f.form, f.filedAt,
    name ++ " • ".toList ++ f.form ++ " • ".toList ++ f.filedAt,
    base, primaryUrl, enr.1, enr.2.1, enr.2.2⟩

/-- The per-registrant loop: each filing is processed independently and
pushed in order. -/
def processFilings (cikParam name : Str) (filings : List FilingInput) : List FilingOut :=
  filings.map (processFiling cikParam name)

/-- Concrete batch for the C9 witness: the first filing has a failing
document fetch, the second succeeds. -/
def filingsC9 : List FilingInput :=
  [⟨"8-K".toList, "2024-01-02".toList, "0001234567-24-000001".toList,
    some "doc1.htm".toList, FetchOutcome.netFail⟩,
   ⟨"10-Q".toList, "2024-01-03".toList, "0001234567-24-000002".toList,
    some "doc2.htm".toList, FetchOutcome.ok "<p>hello</p>".toList⟩]

/-! Theorems: the claims checked against the embedding. -/

/-! ### Lemmas about the first-claim-wins merge map -/

theorem lookup_insertIfAbsent_preserve {m : List (Str × Row)} {k : Str} {v : Row}
    (h : lookupKey m k = some v) (k2 : Str) (r : Row) :
    lookupKey (insertIfAbsent m k2 r) k = some v := by
  unfold insertIfAbsent
  split
  · exact h
  · unfold lookupKey at h ⊢
    rw [List.find?_append]
    rcases Option.map_eq_some'.mp h with ⟨e, he, hev⟩
    rw [he]
    simpa using hev

theorem lookup_foldVariants_preserve (ns : List Str) {m : List (Str × Row)}
    {k : Str} {v : Row} (r : Row) (h : lookupKey m k = some v) :
    lookupKey (ns.foldl (fun m n => insertIfAbsent m (plainFilter n) r) m) k = some v := by
  induction ns generalizing m with
  | nil => exact h
  | cons n ns ih =>
    exact ih (lookup_insertIfAbsent_preserve h (plainFilter n) r)

theorem lookup_pushRow_preserve {m : List (Str × Row)} {k : Str} {v : Row}
    (r : Row) (h : lookupKey m k = some v) :
    lookupKey (pushRow m r) k = some v :=
  lookup_foldVariants_preserve _ r h

theorem lookup_foldRows_preserve (l : List Row) {m : List (Str × Row)}
    {k : Str} {v : Row} (h : lookupKey m k = some v) :
    lookupKey (l.foldl pushRow m) k = some v := by
  induction l generalizing m with
  | nil => exact h
  | cons r l ih => exact ih (lookup_pushRow_preserve r h)

theorem lookup_insertIfAbsent_cases {m : List (Str × Row)} {k k2 : Str}
    {v : Row} (r : Row)
    (h : lookupKey (insertIfAbsent m k2 r) k = some v) :
    v = r ∨ lookupKey m k = some v := by
  unfold insertIfAbsent at h
  split at h
  · exact Or.inr h
  · unfold lookupKey at h ⊢
    rw [List.find?_append] at h
    cases hm : (m.find? (fun e => e.1 = k)) with
    | some e => rw [hm] at h; simp at h; exact Or.inr (by simp [hm, h])
    | none =>
      rw [hm] at h
      simp at h
      rcases h with ⟨he, hv⟩
      exact Or.inl hv.symm

theorem lookup_foldVariants_cases (ns : List Str) {m : List (Str × Row)}
    {k : Str} {v : Row} (r : Row)
    (h : lookupKey (ns.foldl (fun m n => insertIfAbsent m (plainFilter n) r) m) k = some v) :
    v = r ∨ lookupKey m k = some v := by
  induction ns generalizing m with
  | nil => exact Or.inr h
  | cons n ns ih =>
    rcases ih h with hv | hv
    · exact Or.inl hv
    · exact lookup_insertIfAbsent_cases r hv

theorem lookup_pushRow_cases {m : List (Str × Row)} {k : Str} {v : Row}
    (r : Row) (h : lookupKey (pushRow m r) k = some v) :
    v = r ∨ lookupKey m k = some v :=
  lookup_foldVariants_cases _ r h

theorem lookup_foldRows_cases (l : List Row) {m : List (Str × Row)}
    {k : Str} {v : Row} (h : lookupKey (l.foldl pushRow m) k = some v) :
    v ∈ l ∨ lookupKey m k = some v := by
  induction l generalizing m with
  | nil => exact Or.inr h
  | cons r l ih =>
    rcases ih h with hv | hv
    · exact Or.inl (List.mem_cons_of_mem _ hv)
    · rcases lookup_pushRow_cases r hv with hv | hv
      · exact Or.inl (by simp [hv])
      · exact Or.inr hv

theorem lookup_insertIfAbsent_isSome_self (m : List (Str × Row)) (k : Str)
    (r : Row) : (lookupKey (insertIfAbsent m k r) k).isSome := by
  unfold insertIfAbsent lookupKey
  split
  · rename_i h
    rcases List.any_eq_true.mp h with ⟨e, he, hek⟩
    simp only [decide_eq_true_eq] at hek
    have : (List.find? (fun e => e.1 = k) m).isSome := by
      rw [List.find?_isSome]
      exact ⟨e, he, by simp [hek]⟩
    rcases Option.isSome_iff_exists.mp this with ⟨a, ha⟩
    simp [ha]
  · rw [List.find?_append]
    cases hm : (m.find? (fun e => e.1 = k)) with
    | some e => simp [hm]
    | none => simp [hm]

theorem lookup_foldVariants_isSome (ns : List Str) (m : List (Str × Row))
    (k : Str) (r : Row) (hk : k ∈ ns.map plainFilter) :
    (lookupKey (ns.foldl (fun m n => insertIfAbsent m (plainFilter n) r) m) k).isSome := by
  induction ns generalizing m with
  | nil => simp at hk
  | cons n ns ih =>
    rcases List.mem_map.mp hk with ⟨n', hn', hkn⟩
    rcases List.mem_cons.mp hn' with hn' | hn'
    · subst hn'
      rw [List.foldl_cons, ← hkn]
      have h0 := lookup_insertIfAbsent_isSome_self m (plainFilter n') r
      rcases Option.isSome_iff_exists.mp h0 with ⟨v, hv⟩
      rw [Option.isSome_iff_exists]
      exact ⟨v, lookup_foldVariants_preserve ns r hv⟩
    · exact ih _ (List.mem_map.mpr ⟨n', hn', hkn⟩)

theorem lookup_pushRow_isSome (m : List (Str × Row)) (k : Str) (r : Row)
    (hk : k ∈ keysOf r) : (lookupKey (pushRow m r) k).isSome :=
  lookup_foldVariants_isSome _ m k r hk

theorem lookup_foldRows_isSome (l : List Row) (m : List (Str × Row)) (k : Str)
    (h : ∃ r ∈ l, k ∈ keysOf r) : (lookupKey (l.foldl pushRow m) k).isSome := by
  induction l generalizing m with
  | nil => simp at h
  | cons r l ih =>
    rcases h with ⟨r', hr', hk⟩
    rcases List.mem_cons.mp hr' with hr' | hr'
    · subst hr'
      rw [List.foldl_cons]
      have h0 := lookup_pushRow_isSome m k r' hk
      rcases Option.isSome_iff_exists.mp h0 with ⟨v, hv⟩
      rw [Option.isSome_iff_exists]
      exact ⟨v, lookup_foldRows_preserve l hv⟩
    · exact ih _ ⟨r', hr', hk⟩

theorem lookupKey_nil (k : Str) : lookupKey [] k = none := rfl

/-- C1. Index merge precedence: whenever a secondary-source row claims a
plain key, the built index entry for that key is a row of the secondary
source, regardless of any colliding primary-source rows, because the
secondary rows are inserted into the first-claim-wins map first. -/
theorem index_merge_secondary_wins (arr2 arr1 : List Row) (k : Str)
    (r1 r2 : Row) (_hr1 : r1 ∈ arr1) (_hk1 : k ∈ keysOf r1)
    (hr2 : r2 ∈ arr2) (hk2 : k ∈ keysOf r2) :
    ∃ v ∈ arr2, lookupKey (buildIndex arr2 arr1) k = some v := by
  have hphase1 : (lookupKey (arr2.foldl pushRow []) k).isSome :=
    lookup_foldRows_isSome arr2 [] k ⟨r2, hr2, hk2⟩
  rcases Option.isSome_iff_exists.mp hphase1 with ⟨v, hv⟩
  have hv2 : v ∈ arr2 := by
    rcases lookup_foldRows_cases arr2 hv with h | h
    · exact h
    · rw [lookupKey_nil] at h; cases h
  exact ⟨v, hv2, lookup_foldRows_preserve arr1 hv⟩

/-- Concrete witness for C1, matching the BRKB example of the spec: the
secondary source says BRK.B belongs to one registrant, the primary source
maps BRK-B to another; both normalize to the plain key BRKB and the index
keeps the secondary row. -/
theorem index_merge_secondary_wins_witness :
    ∃ v ∈ [Row.mk "BRK.B".toList "0001067983".toList "BERKSHIRE HATHAWAY INC".toList],
      lookupKey
        (buildIndex
          [Row.mk "BRK.B".toList "0001067983".toList "BERKSHIRE HATHAWAY INC".toList]
          [Row.mk "BRK-B".toList "0000999999".toList "OTHER CO".toList])
        "BRKB".toList = some v :=
  index_merge_secondary_wins
    [Row.mk "BRK.B".toList "0001067983".toList "BERKSHIRE HATHAWAY INC".toList]
    [Row.mk "BRK-B".toList "0000999999".toList "OTHER CO".toList]
    "BRKB".toList
    (Row.mk "BRK-B".toList "0000999999".toList "OTHER CO".toList)
    (Row.mk "BRK.B".toList "0001067983".toList "BERKSHIRE HATHAWAY INC".toList)
    (by decide) (by decide) (by decide) (by decide)

/-- C10. pad10 strips non-digits and left-pads with zeros, so it guarantees
width at least 10: inputs with more than 10 digits come out longer than 10,
the exactly-10 invariant holds only when the digit count is at most 10, and
zeroPadCIK pads the raw parameter (its input is kept verbatim as a suffix,
digits validated nowhere). -/
theorem pad_width_is_minimum_not_exact :
    (∀ s : Str, 10 ≤ (pad10 s).length) ∧
    (∀ s : Str, 10 < (s.filter isDigitB).length →
      pad10 s = s.filter isDigitB ∧ 10 < (pad10 s).length) ∧
    (∀ s : Str, (s.filter isDigitB).length ≤ 10 → (pad10 s).length = 10) ∧
    (∀ s : Str, s <:+ zeroPadCIK s ∧ ∀ c ∈ zeroPadCIK s, c ∈ s ∨ c = '0') ∧
    zeroPadCIK "12ab".toList = "00000012ab".toList := by
  refine ⟨?_, ?_, ?_, ?_, by decide⟩
  · intro s
    simp only [pad10, padStartZero, List.length_append, List.length_replicate]
    omega
  · intro s h
    constructor
    · simp only [pad10, padStartZero]
      rw [show 10 - (s.filter isDigitB).length = 0 by omega]
      simp
    · simp only [pad10, padStartZero, List.length_append, List.length_replicate]
      omega
  · intro s h
    simp only [pad10, padStartZero, List.length_append, List.length_replicate]
    omega
  · intro s
    refine ⟨List.suffix_append _ _, ?_⟩
    intro c hc
    rcases List.mem_append.mp hc with hc | hc
    · exact Or.inr (List.eq_of_mem_replicate hc)
    · exact Or.inl hc

/-- Witness for C10 at concrete inputs: a 12-digit id stays 12 characters
long, so the exactly-10 invariant fails beyond 10 digits. -/
theorem pad_width_is_minimum_not_exact_witness :
    pad10 "123456789012".toList = "123456789012".toList.filter isDigitB ∧
    10 < (pad10 "123456789012".toList).length :=
  pad_width_is_minimum_not_exact.2.1 "123456789012".toList (by decide)

/-- C4 counterexample: a first attempt whose ok response fails to parse is
not terminal. The loop retries, and a second attempt that parses makes the
whole call succeed, contradicting the claim that the parse failure raises
a terminal UpstreamError without consuming further retry attempts. -/
theorem fetch_parse_failure_not_terminal_counterexample :
    fetchJSONModel
        (fun i => if i = 0 then AttemptResult.okParseFail else AttemptResult.okJson 7)
      = (Except.ok 7, 2) ∧
    (fetchJSONModel
        (fun i => if i = 0 then AttemptResult.okParseFail else AttemptResult.okJson 7)).1
      ≠ Except.error () := by
  constructor
  · rfl
  · intro h
    simp [fetchJSONModel, runFetchFrom] at h

theorem runFetch_all_failures (outcomes : ℕ → AttemptResult) :
    ∀ fuel i, (∀ j, i ≤ j → j < i + fuel → (outcomes j).isSuccess = false) →
      runFetchFrom outcomes i fuel = (Except.error (), i + fuel) := by
  intro fuel
  induction fuel with
  | zero => intro i _; simp [runFetchFrom]
  | succ fuel ih =>
    intro i h
    have hi : (outcomes i).isSuccess = false := h i (le_refl i) (by omega)
    have hrec := ih (i + 1) (fun j hj1 hj2 => h j (by omega) (by omega))
    cases ho : outcomes i with
    | okJson v => rw [ho] at hi; simp [AttemptResult.isSuccess] at hi
    | transportError => simp [runFetchFrom, ho, hrec]; omega
    | badStatus => simp [runFetchFrom, ho, hrec]; omega
    | okParseFail => simp [runFetchFrom, ho, hrec]; omega

/-- C4 amended: a parse failure of an ok response is caught like any other
failure and consumes one retry attempt, after which the loop goes on with
the next attempt; only when all 4 attempts fail does the call raise the
error. -/
theorem fetch_parse_failure_consumes_attempt (outcomes : ℕ → AttemptResult)
    (i fuel : ℕ) (h : outcomes i = AttemptResult.okParseFail) :
    runFetchFrom outcomes i (fuel + 1) = runFetchFrom outcomes (i + 1) fuel ∧
    ((∀ j, j < 4 → (outcomes j).isSuccess = false) →
      fetchJSONModel outcomes = (Except.error (), 4)) := by
  constructor
  · simp [runFetchFrom, h]
  · intro hall
    have := runFetch_all_failures outcomes 4 0 (fun j _ hj => hall j (by omega))
    simpa using this

/-- Witness for C4 amended: with every attempt failing to parse, the first
attempt is consumed and the call errors out after 4 attempts. -/
theorem fetch_parse_failure_consumes_attempt_witness :
    runFetchFrom (fun _ => AttemptResult.okParseFail) 0 4
        = runFetchFrom (fun _ => AttemptResult.okParseFail) 1 3 ∧
    fetchJSONModel (fun _ => AttemptResult.okParseFail) = (Except.error (), 4) := by
  have h := fetch_parse_failure_consumes_attempt (fun _ => AttemptResult.okParseFail)
    0 3 rfl
  exact ⟨h.1, h.2 (by decide)⟩

/-- C3 counterexample: for the KV-backed loadIndex the claim fails on two
concrete runs. First, a configured tier holding a fresh empty list is
treated as a miss and rebuilt inside the window. Second, with the tier
unconfigured, a call right after a build rebuilds again: no in-process
tier exists in loadIndex, so a call issued before the window has elapsed
since the last build still invokes the builder. -/
theorem cache_freshness_counterexample :
    (loadIndexStep ⟨true, some ([], 0)⟩ 1000 [rowA]).2.2 = true ∧
    (loadIndexStep (loadIndexStep ⟨false, none⟩ 0 [rowA]).2.1 1 [rowA]).2.2 = true := by
  constructor <;> rfl

/-- C3 amended: the in-memory loadAll cache behaves as claimed — a call
inside the window returns the cached rows unchanged without running the
builder, a call at or past the window rebuilds exactly once, and a read
that does not rebuild is always inside the window. For loadIndex the same
holds only when the KV tier is configured and the cached list is
non-empty; an empty cached list or an unconfigured tier forces a rebuild
on every call. -/
theorem cache_freshness_amended :
    (∀ st now build rows, st.cache = some rows → now - st.last < TTL_MS →
      loadAllStep st now build = (rows, st, false)) ∧
    (∀ st now build rows, st.cache = some rows → ¬ now - st.last < TTL_MS →
      loadAllStep st now build = (build, ⟨some build, now⟩, true)) ∧
    (∀ st now build, st.cache = none →
      loadAllStep st now build = (build, ⟨some build, now⟩, true)) ∧
    (∀ st now build rows st2, loadAllStep st now build = (rows, st2, false) →
      st.cache = some rows ∧ now - st.last < TTL_MS) ∧
    (∀ kv now build rows, kvGetM kv now = some rows → rows ≠ [] →
      loadIndexStep kv now build = (rows, kv, false)) ∧
    (∀ kv now build, (kvGetM kv now = none ∨ kvGetM kv now = some []) →
      loadIndexStep kv now build = (build, kvSetM kv build now, true)) ∧
    (∀ kv now rows at0, kv.configured = true → kv.slot = some (rows, at0) →
      now - at0 < TTL_MS → kvGetM kv now = some rows) := by
  refine ⟨?_, ?_, ?_, ?_, ?_, ?_, ?_⟩
  · intro st now build rows hc hf
    simp [loadAllStep, hc, hf]
  · intro st now build rows hc hf
    simp [loadAllStep, hc, hf]
  · intro st now build hc
    simp [loadAllStep, hc]
  · intro st now build rows st2 h
    cases hc : st.cache with
    | none => simp [loadAllStep, hc] at h
    | some rows0 =>
      by_cases hf : now - st.last < TTL_MS
      · simp [loadAllStep, hc, hf] at h
        exact ⟨congrArg some h.1, hf⟩
      · simp [loadAllStep, hc, hf] at h
  · intro kv now build rows hg hne
    simp [loadIndexStep, hg, List.isEmpty_iff, hne]
  · intro kv now build hg
    rcases hg with hg | hg <;> simp [loadIndexStep, hg, List.isEmpty_iff]
  · intro kv now rows at0 hconf hslot hf
    simp [kvGetM, hconf, hslot, hf]

/-- Witness for C3 amended at a concrete run: a call 1000 ms after a build
returns the built list unchanged without rebuilding. -/
theorem cache_freshness_amended_witness :
    loadAllStep ⟨some [rowA], 0⟩ 1000 [] = ([rowA], ⟨some [rowA], 0⟩, false) :=
  cache_freshness_amended.1 ⟨some [rowA], 0⟩ 1000 [] [rowA] rfl (by decide)

/-! ### Character and normalization lemmas -/

theorem upMap_facts : ∀ p ∈ upMap,
    plainCharB p.1 = true ∧ plainCharB p.2 = true ∧
    isWsB p.1 = false ∧ isWsB p.2 = false ∧
    isDigitB p.1 = false ∧ isDigitB p.2 = false ∧ p.2 ≠ '.' := by decide

theorem upMap_snd_not_fst : ∀ p ∈ upMap, ∀ q ∈ upMap, ¬ q.1 = p.2 := by decide

theorem plainCharB_jsUpperChar (c : Char) : plainCharB (jsUpperChar c) = plainCharB c := by
  unfold jsUpperChar
  cases h : upMap.find? (fun p => p.1 = c) with
  | none => rfl
  | some p =>
    have hmem := List.mem_of_find?_eq_some h
    have hpc : p.1 = c := by
      have := List.find?_some h
      simpa using this
    have hfacts := upMap_facts p hmem
    rw [hfacts.2.1, ← hpc, hfacts.1]

theorem isWsB_jsUpperChar (c : Char) : isWsB (jsUpperChar c) = isWsB c := by
  unfold jsUpperChar
  cases h : upMap.find? (fun p => p.1 = c) with
  | none => rfl
  | some p =>
    have hmem := List.mem_of_find?_eq_some h
    have hpc : p.1 = c := by
      have := List.find?_some h
      simpa using this
    have hfacts := upMap_facts p hmem
    rw [hfacts.2.2.2.1, ← hpc, hfacts.2.2.1]

theorem isDigitB_jsUpperChar (c : Char) : isDigitB (jsUpperChar c) = isDigitB c := by
  unfold jsUpperChar
  cases h : upMap.find? (fun p => p.1 = c) with
  | none => rfl
  | some p =>
    have hmem := List.mem_of_find?_eq_some h
    have hpc : p.1 = c := by
      have := List.find?_some h
      simpa using this
    have hfacts := upMap_facts p hmem
    rw [hfacts.2.2.2.2.2.1, ← hpc, hfacts.2.2.2.2.1]

theorem jsUpperChar_digit (c : Char) (h : isDigitB c = true) : jsUpperChar c = c := by
  unfold jsUpperChar
  cases hf : upMap.find? (fun p => p.1 = c) with
  | none => rfl
  | some p =>
    have hmem := List.mem_of_find?_eq_some hf
    have hpc : p.1 = c := by
      have := List.find?_some hf
      simpa using this
    have h1 := (upMap_facts p hmem).2.2.2.2.1
    rw [hpc, h] at h1
    cases h1

theorem jsUpperChar_idem (c : Char) : jsUpperChar (jsUpperChar c) = jsUpperChar c := by
  unfold jsUpperChar
  cases hf : upMap.find? (fun p => p.1 = c) with
  | none => rw [hf]
  | some p =>
    have hmem := List.mem_of_find?_eq_some hf
    have hnone : upMap.find? (fun q => q.1 = p.2) = none := by
      rw [List.find?_eq_none]
      intro q hq
      simp only [decide_eq_true_eq]
      exact upMap_snd_not_fst p hmem q hq
    rw [hnone]

theorem jsUpperChar_eq_dot_iff (c : Char) : (jsUpperChar c = '.') ↔ (c = '.') := by
  constructor
  · intro h
    by_contra hc
    unfold jsUpperChar at h
    cases hf : upMap.find? (fun p => p.1 = c) with
    | none => rw [hf] at h; exact hc h
    | some p =>
      rw [hf] at h
      have hmem := List.mem_of_find?_eq_some hf
      exact (upMap_facts p hmem).2.2.2.2.2.2 h
  · intro h
    subst h
    rfl

theorem dotsToDashChar_notWs (c : Char) :
    isWsB (if c = '.' then '-' else c) = isWsB c := by
  by_cases h : c = '.' <;> simp [h] <;> decide

theorem plainCharB_of_digit (c : Char) (h : isDigitB c = true) : plainCharB c = true := by
  unfold plainCharB
  have hd : c ≠ '.' := by
    intro hc; rw [hc] at h; cases h
  have hh : c ≠ '-' := by
    intro hc; rw [hc] at h; cases h
  simp [hd, hh]

theorem dropWhile_of_none (p : Char → Bool) (s : Str)
    (h : ∀ c ∈ s, p c = false) : s.dropWhile p = s := by
  cases s with
  | nil => rfl
  | cons c cs =>
    have := h c (by simp)
    simp [List.dropWhile, this]

theorem jsTrim_of_noWs (s : Str) (h : ∀ c ∈ s, isWsB c = false) : jsTrim s = s := by
  unfold jsTrim
  rw [dropWhile_of_none _ _ h]
  rw [dropWhile_of_none _ _ (fun c hc => h c (List.mem_reverse.mp hc))]
  exact List.reverse_reverse s

theorem jsUpper_noWs (s : Str) (h : ∀ c ∈ s, isWsB c = false) :
    ∀ c ∈ jsUpper s, isWsB c = false := by
  intro c hc
  rcases List.mem_map.mp hc with ⟨c0, hc0, rfl⟩
  rw [isWsB_jsUpperChar]
  exact h c0 hc0

theorem plainFilter_jsUpper (s : Str) :
    plainFilter (jsUpper s) = jsUpper (plainFilter s) := by
  unfold plainFilter jsUpper
  rw [List.filter_map]
  congr 1
  apply List.filter_congr
  intro c _
  exact plainCharB_jsUpperChar c

theorem plainFilter_removeDots (s : Str) :
    plainFilter (removeDots s) = plainFilter s := by
  unfold plainFilter removeDots
  rw [List.filter_filter]
  apply List.filter_congr
  intro c _
  by_cases h : c = '.' <;> simp [plainCharB, h]

theorem plainFilter_dotsToDash (s : Str) :
    plainFilter (dotsToDash s) = plainFilter s := by
  unfold plainFilter dotsToDash
  rw [List.filter_map]
  have h1 : (List.filter (plainCharB ∘ fun c => if c = '.' then '-' else c) s)
      = List.filter plainCharB s := by
    apply List.filter_congr
    intro c _
    by_cases h : c = '.' <;> simp [plainCharB, h]
  rw [h1]
  have h2 : ∀ c ∈ List.filter plainCharB s, (if c = '.' then '-' else c) = c := by
    intro c hc
    have := (List.mem_filter.mp hc).2
    unfold plainCharB at this
    have hd : c ≠ '.' := by
      intro h; rw [h] at this; cases this
    simp [hd]
  calc List.map (fun c => if c = '.' then '-' else c) (List.filter plainCharB s)
      = List.map id (List.filter plainCharB s) := List.map_congr_left h2
    _ = List.filter plainCharB s := List.map_id _

theorem plainFilter_idem (s : Str) :
    plainFilter (plainFilter s) = plainFilter s := by
  unfold plainFilter
  rw [List.filter_filter]
  apply List.filter_congr
  intro c _
  cases h : plainCharB c <;> simp [h]

theorem jsUpper_idem (s : Str) : jsUpper (jsUpper s) = jsUpper s := by
  unfold jsUpper
  rw [List.map_map]
  apply List.map_congr_left
  intro c _
  exact jsUpperChar_idem c

theorem jsUpper_removeDots (s : Str) :
    jsUpper (removeDots s) = removeDots (jsUpper s) := by
  unfold jsUpper removeDots
  rw [List.filter_map]
  congr 1
  apply List.filter_congr
  intro c _
  simp only [Function.comp]
  by_cases h : c = '.'
  · subst h; rfl
  · have : jsUpperChar c ≠ '.' := fun hc => h ((jsUpperChar_eq_dot_iff c).mp hc)
    simp [h, this]

theorem jsUpper_dotsToDash (s : Str) :
    jsUpper (dotsToDash s) = dotsToDash (jsUpper s) := by
  unfold jsUpper dotsToDash
  rw [List.map_map, List.map_map]
  apply List.map_congr_left
  intro c _
  simp only [Function.comp]
  by_cases h : c = '.'
  · subst h; rfl
  · have h2 : jsUpperChar c ≠ '.' := fun hc => h ((jsUpperChar_eq_dot_iff c).mp hc)
    simp [h, h2]

/-- Every member of the deduplicated list is a member of the input. -/
theorem mem_dedupeFirstAux (seen l : List Str) (x : Str)
    (h : x ∈ dedupeFirstAux seen l) : x ∈ l := by
  induction l generalizing seen with
  | nil => simpa [dedupeFirstAux] using h
  | cons y ys ih =>
    unfold dedupeFirstAux at h
    split at h
    · exact List.mem_cons_of_mem _ (ih _ h)
    · rcases List.mem_cons.mp h with h | h
      · simp [h]
      · exact List.mem_cons_of_mem _ (ih _ h)

theorem mem_dedupeFirst (l : List Str) (x : Str) (h : x ∈ dedupeFirst l) : x ∈ l :=
  mem_dedupeFirstAux [] l x h

theorem head_mem_dedupeFirst (x : Str) (xs : List Str) :
    x ∈ dedupeFirst (x :: xs) := by
  simp [dedupeFirst, dedupeFirstAux]

theorem variant_keys_collapse (t : Str) :
    ∀ n ∈ norms t, plainFilter n = queryKey t := by
  intro n hn
  unfold norms at hn
  have hn4 := mem_dedupeFirst _ _ hn
  simp only [List.mem_cons, List.not_mem_nil, or_false] at hn4
  unfold queryKey
  rcases hn4 with rfl | rfl | rfl | rfl
  · rfl
  · exact plainFilter_removeDots _
  · exact plainFilter_dotsToDash _
  · exact plainFilter_idem _

theorem norms_ne_nil (t : Str) : norms t ≠ [] := by
  unfold norms
  intro h
  have := head_mem_dedupeFirst (jsTrim (jsUpper t))
    [removeDots (jsTrim (jsUpper t)), dotsToDash (jsTrim (jsUpper t)),
     plainFilter (jsTrim (jsUpper t))]
  rw [h] at this
  cases this

theorem trimUpper_mem_norms (t : Str) : jsTrim (jsUpper t) ∈ norms t :=
  head_mem_dedupeFirst _ _

theorem find?_congrPred {α : Type} (p q : α → Bool) (l : List α)
    (h : ∀ a ∈ l, p a = q a) : l.find? p = l.find? q := by
  induction l with
  | nil => rfl
  | cons a as ih =>
    have ha := h a (by simp)
    rw [List.find?_cons, List.find?_cons, ha]
    cases q a with
    | true => rfl
    | false => exact ih (fun b hb => h b (List.mem_cons_of_mem _ hb))

/-- The plain key after upper-casing agrees between a symbol and each of
its textual variants. -/
theorem variantKey_eq (S V : Str)
    (hM : V = jsUpper S ∨ V = removeDots S ∨ V = dotsToDash S ∨ V = plainFilter S) :
    plainFilter (jsUpper V) = plainFilter (jsUpper S) := by
  rcases hM with rfl | rfl | rfl | rfl
  · rw [jsUpper_idem]
  · rw [jsUpper_removeDots, plainFilter_removeDots]
  · rw [jsUpper_dotsToDash, plainFilter_dotsToDash]
  · rw [← plainFilter_jsUpper, plainFilter_idem]

theorem variant_noWs (S V : Str)
    (hM : V = jsUpper S ∨ V = removeDots S ∨ V = dotsToDash S ∨ V = plainFilter S)
    (hWs : ∀ c ∈ S, isWsB c = false) : ∀ c ∈ V, isWsB c = false := by
  rcases hM with rfl | rfl | rfl | rfl
  · exact jsUpper_noWs S hWs
  · intro c hc
    exact hWs c (List.mem_of_mem_filter hc)
  · intro c hc
    rcases List.mem_map.mp hc with ⟨c0, hc0, rfl⟩
    rw [dotsToDashChar_notWs]
    exact hWs c0 hc0
  · intro c hc
    exact hWs c (List.mem_of_mem_filter hc)

theorem variant_ne_nil (S V : Str)
    (hM : V = jsUpper S ∨ V = removeDots S ∨ V = dotsToDash S ∨ V = plainFilter S)
    (hNe : plainFilter (jsUpper S) ≠ []) : V ≠ [] := by
  intro hV
  apply hNe
  have := variantKey_eq S V hM
  rw [hV] at this
  exact this.symm

theorem self_ne_nil (S : Str) (hNe : plainFilter (jsUpper S) ≠ []) : S ≠ [] := by
  intro hS
  apply hNe
  rw [hS]
  rfl

/-- An all-digit string of length one to ten is its own upper-cased plain
key, so the numeric-tier guard is decided by the plain key alone. -/
theorem numeric_guard_false (S T : Str)
    (hKey : plainFilter (jsUpper T) = plainFilter (jsUpper S))
    (hNum : isNumeric1to10 (plainFilter (jsUpper S)) = false) :
    isNumeric1to10 T = false := by
  cases h : isNumeric1to10 T with
  | false => rfl
  | true =>
    exfalso
    have h0 := h
    unfold isNumeric1to10 at h0
    simp only [Bool.and_eq_true, decide_eq_true_eq] at h0
    obtain ⟨⟨hall, _⟩, _⟩ := h0
    have hdig : ∀ c ∈ T, isDigitB c = true := List.all_eq_true.mp hall
    have hup : jsUpper T = T := by
      unfold jsUpper
      calc T.map jsUpperChar = T.map id := by
            apply List.map_congr_left
            intro c hc
            exact jsUpperChar_digit c (hdig c hc)
        _ = T := List.map_id T
    have hpl : plainFilter T = T := by
      unfold plainFilter
      rw [List.filter_eq_self]
      intro c hc
      exact plainCharB_of_digit c (hdig c hc)
    rw [hup, hpl] at hKey
    rw [← hKey] at hNum
    rw [h] at hNum
    cases hNum

theorem any_congrPred {α : Type} (p q : α → Bool) (l : List α)
    (h : ∀ a ∈ l, p a = q a) : l.any p = l.any q := by
  induction l with
  | nil => rfl
  | cons a as ih =>
    rw [List.any_cons, List.any_cons, h a (by simp)]
    rw [ih (fun b hb => h b (List.mem_cons_of_mem _ hb))]

theorem qset_mem_iff (T : Str) (K : Str) (hT : ∀ c ∈ T, isWsB c = false)
    (hK : plainFilter (jsUpper T) = K) :
    ∀ v, (v ∈ (norms T).map plainFilter) ↔ v = K := by
  have htrim : jsTrim (jsUpper T) = jsUpper T :=
    jsTrim_of_noWs _ (jsUpper_noWs T hT)
  have hqk : queryKey T = K := by
    unfold queryKey
    rw [htrim, hK]
  intro v
  constructor
  · intro hv
    rcases List.mem_map.mp hv with ⟨n, hn, rfl⟩
    rw [variant_keys_collapse T n hn, hqk]
  · intro hv
    subst hv
    exact List.mem_map.mpr ⟨jsTrim (jsUpper T), trimUpper_mem_norms T,
      by rw [variant_keys_collapse T _ (trimUpper_mem_norms T), hqk]⟩

/-- C5 amended. Variant-insensitive resolution: for a symbol S present in
the index, resolving any of its upper-case, dot-free, dashed or plain
textual variants gives the same row as resolving S itself, provided S
contains no whitespace, its plain key is non-empty, and its plain key is
not a string of one to ten digits (which would divert one variant but not
another into the numeric CIK tier). -/
theorem resolve_variant_insensitive (list : List Row) (S V : Str)
    (hM : V = jsUpper S ∨ V = removeDots S ∨ V = dotsToDash S ∨ V = plainFilter S)
    (hWs : ∀ c ∈ S, isWsB c = false)
    (hNum : isNumeric1to10 (plainFilter (jsUpper S)) = false)
    (hNe : plainFilter (jsUpper S) ≠ [])
    (r0 : Row) (hr0 : r0 ∈ list) (ht0 : r0.ticker = S) :
    resolve list V = resolve list S ∧ (resolve list S).isSome = true := by
  have hWsV : ∀ c ∈ V, isWsB c = false := variant_noWs S V hM hWs
  have trimV : jsTrim V = V := jsTrim_of_noWs V hWsV
  have trimS : jsTrim S = S := jsTrim_of_noWs S hWs
  have neV : V ≠ [] := variant_ne_nil S V hM hNe
  have neS : S ≠ [] := self_ne_nil S hNe
  have hKeyV : plainFilter (jsUpper V) = plainFilter (jsUpper S) := variantKey_eq S V hM
  have numV : isNumeric1to10 V = false := numeric_guard_false S V hKeyV hNum
  have numS : isNumeric1to10 S = false := numeric_guard_false S S rfl hNum
  have hqV := qset_mem_iff V (plainFilter (jsUpper S)) hWsV hKeyV
  have hqS := qset_mem_iff S (plainFilter (jsUpper S)) hWs rfl
  have hpred : ∀ x ∈ list,
      tickerMatches ((norms V).map plainFilter) x
        = tickerMatches ((norms S).map plainFilter) x := by
    intro x _
    unfold tickerMatches
    apply any_congrPred
    intro v _
    exact decide_eq_decide.mpr ((hqV v).trans (hqS v).symm)
  have hfind : list.find? (tickerMatches ((norms V).map plainFilter))
      = list.find? (tickerMatches ((norms S).map plainFilter)) :=
    find?_congrPred _ _ _ hpred
  have hpred0 : tickerMatches ((norms S).map plainFilter) r0 = true := by
    unfold tickerMatches
    rw [ht0]
    apply List.any_eq_true.mpr
    refine ⟨plainFilter (jsUpper S), (hqS _).mpr rfl, ?_⟩
    exact decide_eq_true ((hqS _).mpr rfl)
  have hsome : (list.find? (tickerMatches ((norms S).map plainFilter))).isSome :=
    List.find?_isSome.mpr ⟨r0, hr0, hpred0⟩
  obtain ⟨r, hr⟩ := Option.isSome_iff_exists.mp hsome
  constructor
  · unfold resolve
    simp only [trimV, trimS, numV, numS, Bool.false_eq_true, if_false, hfind, hr]
    rw [if_neg neV, if_neg neS]
  · unfold resolve
    simp only [trimS, numS, Bool.false_eq_true, if_false, hr]
    rw [if_neg neS]
    rfl

/-- C5 counterexample: the symbol 1.2 is present in the index, 12 is its
remove-dots variant, yet resolve finds the colliding registrant through
the numeric CIK tier for 12 and the ticker tier row for 1.2, so the two
resolutions disagree. -/
theorem resolve_variant_insensitive_counterexample :
    removeDots "1.2".toList = "12".toList ∧
    (∃ r ∈ listC5, r.ticker = "1.2".toList) ∧
    resolve listC5 "12".toList ≠ resolve listC5 "1.2".toList := by
  refine ⟨by decide, ⟨listC5.head (by decide), by decide, by decide⟩, by decide⟩

/-- Witness for C5 amended at the BRK.B example: resolving the dashed
variant BRK-B equals resolving BRK.B and succeeds. -/
theorem resolve_variant_insensitive_witness :
    resolve [⟨"BRK.B".toList, "0001067983".toList, "BERKSHIRE HATHAWAY INC".toList⟩]
        (dotsToDash "BRK.B".toList)
      = resolve [⟨"BRK.B".toList, "0001067983".toList, "BERKSHIRE HATHAWAY INC".toList⟩]
        "BRK.B".toList ∧
    (resolve [⟨"BRK.B".toList, "0001067983".toList, "BERKSHIRE HATHAWAY INC".toList⟩]
        "BRK.B".toList).isSome = true :=
  resolve_variant_insensitive
    [⟨"BRK.B".toList, "0001067983".toList, "BERKSHIRE HATHAWAY INC".toList⟩]
    "BRK.B".toList (dotsToDash "BRK.B".toList)
    (Or.inr (Or.inr (Or.inl rfl)))
    (by decide) (by decide) (by decide)
    ⟨"BRK.B".toList, "0001067983".toList, "BERKSHIRE HATHAWAY INC".toList⟩
    (by decide) rfl

/-! ### Sorting lemmas -/

theorem mem_insertLe {α : Type} (le : α → α → Bool) (x a : α) (l : List α) :
    a ∈ insertLe le x l ↔ a = x ∨ a ∈ l := by
  induction l with
  | nil => simp [insertLe]
  | cons y ys ih =>
    unfold insertLe
    split
    · simp
    · rw [List.mem_cons, ih, List.mem_cons]
      tauto

theorem mem_sortLe {α : Type} (le : α → α → Bool) (a : α) (l : List α) :
    a ∈ sortLe le l ↔ a ∈ l := by
  induction l with
  | nil => simp [sortLe]
  | cons x xs ih =>
    unfold sortLe
    rw [mem_insertLe, ih, List.mem_cons]

theorem length_insertLe {α : Type} (le : α → α → Bool) (x : α) (l : List α) :
    (insertLe le x l).length = l.length + 1 := by
  induction l with
  | nil => rfl
  | cons y ys ih =>
    unfold insertLe
    split
    · simp
    · simp [ih]

theorem length_sortLe {α : Type} (le : α → α → Bool) (l : List α) :
    (sortLe le l).length = l.length := by
  induction l with
  | nil => rfl
  | cons x xs ih =>
    unfold sortLe
    rw [length_insertLe, ih, List.length_cons]

theorem pairwise_insertLe {α : Type} (le : α → α → Bool)
    (htrans : ∀ a b c, le a b = true → le b c = true → le a c = true)
    (htot : ∀ a b, le a b = true ∨ le b a = true)
    (x : α) (l : List α) (h : l.Pairwise (fun a b => le a b = true)) :
    (insertLe le x l).Pairwise (fun a b => le a b = true) := by
  induction l with
  | nil => simp [insertLe]
  | cons y ys ih =>
    unfold insertLe
    rcases List.pairwise_cons.mp h with ⟨hy, hys⟩
    split
    · rename_i hxy
      refine List.pairwise_cons.mpr ⟨?_, h⟩
      intro b hb
      rcases List.mem_cons.mp hb with rfl | hb
      · exact hxy
      · exact htrans x y b hxy (hy b hb)
    · rename_i hxy
      have hyx : le y x = true := by
        rcases htot x y with h1 | h1
        · exact absurd h1 hxy
        · exact h1
      refine List.pairwise_cons.mpr ⟨?_, ih hys⟩
      intro b hb
      rcases (mem_insertLe le x b ys).mp hb with rfl | hb
      · exact hyx
      · exact hy b hb

theorem pairwise_sortLe {α : Type} (le : α → α → Bool)
    (htrans : ∀ a b c, le a b = true → le b c = true → le a c = true)
    (htot : ∀ a b, le a b = true ∨ le b a = true)
    (l : List α) : (sortLe le l).Pairwise (fun a b => le a b = true) := by
  induction l with
  | nil => simp [sortLe]
  | cons x xs ih =>
    unfold sortLe
    exact pairwise_insertLe le htrans htot x _ ih

theorem lexLe_total (s t : Str) : lexLe s t = true ∨ lexLe t s = true := by
  induction s generalizing t with
  | nil => left; rfl
  | cons a as ih =>
    cases t with
    | nil => right; rfl
    | cons b bs =>
      unfold lexLe
      rcases Nat.lt_trichotomy a.toNat b.toNat with h | h | h
      · left; simp [h]
      · have h1 : ¬ a.toNat < b.toNat := by omega
        have h2 : ¬ b.toNat < a.toNat := by omega
        rcases ih bs with hr | hr
        · left; simp [h1, h2, hr]
        · right; simp [h1, h2, h, hr]
      · right; simp [h]

theorem lexLe_cons (a b : Char) (as bs : Str) :
    lexLe (a :: as) (b :: bs)
      = if a.toNat < b.toNat then true
        else if b.toNat < a.toNat then false else lexLe as bs := rfl

theorem lexLe_cons_iff (a b : Char) (as bs : Str) :
    lexLe (a :: as) (b :: bs) = true ↔
      a.toNat < b.toNat ∨ (a.toNat = b.toNat ∧ lexLe as bs = true) := by
  rw [lexLe_cons]
  rcases Nat.lt_trichotomy a.toNat b.toNat with h | h | h
  · simp [h]
  · have h1 : ¬ a.toNat < b.toNat := by omega
    have h2 : ¬ b.toNat < a.toNat := by omega
    rw [if_neg h1, if_neg h2]
    simp [h]
  · have h1 : ¬ a.toNat < b.toNat := by omega
    rw [if_neg h1, if_pos h]
    constructor
    · intro hf; cases hf
    · rintro (hlt | ⟨he, _⟩)
      · exact absurd hlt (by omega)
      · exact absurd he (by omega)

theorem lexLe_trans (s t u : Str) (h1 : lexLe s t = true) (h2 : lexLe t u = true) :
    lexLe s u = true := by
  induction s generalizing t u with
  | nil => rfl
  | cons a as ih =>
    cases t with
    | nil => simp [lexLe] at h1
    | cons b bs =>
      cases u with
      | nil => simp [lexLe] at h2
      | cons c cs =>
        rw [lexLe_cons_iff] at h1 h2 ⊢
        rcases h1 with h1 | ⟨h1e, h1r⟩ <;> rcases h2 with h2 | ⟨h2e, h2r⟩
        · left; omega
        · left; omega
        · left; omega
        · exact Or.inr ⟨by omega, ih bs cs h1r h2r⟩

/-- C6. Single-character autocomplete query: the result contains only
rows of the index whose ticker or upper-cased name starts with the
upper-cased query character, it is sorted ascending lexicographically by
ticker, and it respects the clamped limit; the scoring table is never
consulted on this branch. -/
theorem suggest_single_char (q : Str) (limitParam : ℤ) (list : List Row)
    (h1 : (jsTrim q).length = 1) :
    (∀ r ∈ suggestGET q limitParam list,
      r ∈ list ∧
      ((jsUpper (jsTrim q)).isPrefixOf r.ticker
        || (jsUpper (jsTrim q)).isPrefixOf (jsUpper r.name)) = true) ∧
    (suggestGET q limitParam list).Pairwise
      (fun a b => lexLe a.ticker b.ticker = true) ∧
    (suggestGET q limitParam list).length ≤ clampLimit limitParam := by
  have hne : jsTrim q ≠ [] := by
    intro h
    rw [h] at h1
    simp at h1
  have hlen : (jsUpper (jsTrim q)).length = 1 := by
    unfold jsUpper
    rw [List.length_map]
    exact h1
  have hres : suggestGET q limitParam list =
      (sortLe (fun a b => lexLe a.ticker b.ticker)
        (list.filter (fun r => (jsUpper (jsTrim q)).isPrefixOf r.ticker
          || (jsUpper (jsTrim q)).isPrefixOf (jsUpper r.name)))).take
        (clampLimit limitParam) := by
    simp [suggestGET, hne, hlen]
  refine ⟨?_, ?_, ?_⟩
  · intro r hr
    rw [hres] at hr
    have hr2 := List.take_subset _ _ hr
    rw [mem_sortLe] at hr2
    exact List.mem_filter.mp hr2
  · rw [hres]
    refine List.Pairwise.sublist (List.take_sublist _ _) ?_
    exact pairwise_sortLe (fun a b : Row => lexLe a.ticker b.ticker)
      (fun a b c hab hbc => lexLe_trans a.ticker b.ticker c.ticker hab hbc)
      (fun a b => lexLe_total a.ticker b.ticker) _
  · rw [hres]
    exact List.length_take_le _ _

/-- Witness for C6 at a concrete query: the single character a against a
two-row index. -/
theorem suggest_single_char_witness :
    (∀ r ∈ suggestGET "a".toList 50
        [⟨"AAPL".toList, "0000320193".toList, "Apple Inc.".toList⟩,
         ⟨"MSFT".toList, "0000789019".toList, "MICROSOFT CORP".toList⟩],
      r ∈ [⟨"AAPL".toList, "0000320193".toList, "Apple Inc.".toList⟩,
           ⟨"MSFT".toList, "0000789019".toList, "MICROSOFT CORP".toList⟩] ∧
      ((jsUpper (jsTrim "a".toList)).isPrefixOf r.ticker
        || (jsUpper (jsTrim "a".toList)).isPrefixOf (jsUpper r.name)) = true) ∧
    (suggestGET "a".toList 50
        [⟨"AAPL".toList, "0000320193".toList, "Apple Inc.".toList⟩,
         ⟨"MSFT".toList, "0000789019".toList, "MICROSOFT CORP".toList⟩]).Pairwise
      (fun a b => lexLe a.ticker b.ticker = true) ∧
    (suggestGET "a".toList 50
        [⟨"AAPL".toList, "0000320193".toList, "Apple Inc.".toList⟩,
         ⟨"MSFT".toList, "0000789019".toList, "MICROSOFT CORP".toList⟩]).length
      ≤ clampLimit 50 :=
  suggest_single_char "a".toList 50
    [⟨"AAPL".toList, "0000320193".toList, "Apple Inc.".toList⟩,
     ⟨"MSFT".toList, "0000789019".toList, "MICROSOFT CORP".toList⟩]
    (by decide)

theorem scoreTable (q : Str) (row : Row) :
    (plainFilter (jsTrim (jsUpper q)) ∈ (norms row.ticker).map plainFilter →
      scoreRow q row = 100) ∧
    (plainFilter (jsTrim (jsUpper q)) ∉ (norms row.ticker).map plainFilter →
      ((norms row.ticker).map plainFilter).any
        (fun t => (plainFilter (jsTrim (jsUpper q))).isPrefixOf t) = true →
      scoreRow q row = 90) ∧
    (plainFilter (jsTrim (jsUpper q)) ∉ (norms row.ticker).map plainFilter →
      ((norms row.ticker).map plainFilter).any
        (fun t => (plainFilter (jsTrim (jsUpper q))).isPrefixOf t) = false →
      ((norms row.ticker).map plainFilter).any
        (fun t => containsSub (plainFilter (jsTrim (jsUpper q))) t) = true →
      scoreRow q row = 75) ∧
    (plainFilter (jsTrim (jsUpper q)) ∉ (norms row.ticker).map plainFilter →
      ((norms row.ticker).map plainFilter).any
        (fun t => (plainFilter (jsTrim (jsUpper q))).isPrefixOf t) = false →
      ((norms row.ticker).map plainFilter).any
        (fun t => containsSub (plainFilter (jsTrim (jsUpper q))) t) = false →
      (jsTrim (jsUpper q)).isPrefixOf (jsUpper row.name) = true →
      scoreRow q row = 65) ∧
    (plainFilter (jsTrim (jsUpper q)) ∉ (norms row.ticker).map plainFilter →
      ((norms row.ticker).map plainFilter).any
        (fun t => (plainFilter (jsTrim (jsUpper q))).isPrefixOf t) = false →
      ((norms row.ticker).map plainFilter).any
        (fun t => containsSub (plainFilter (jsTrim (jsUpper q))) t) = false →
      (jsTrim (jsUpper q)).isPrefixOf (jsUpper row.name) = false →
      containsSub (jsTrim (jsUpper q)) (jsUpper row.name) = true →
      scoreRow q row = 50) ∧
    (plainFilter (jsTrim (jsUpper q)) ∉ (norms row.ticker).map plainFilter →
      ((norms row.ticker).map plainFilter).any
        (fun t => (plainFilter (jsTrim (jsUpper q))).isPrefixOf t) = false →
      ((norms row.ticker).map plainFilter).any
        (fun t => containsSub (plainFilter (jsTrim (jsUpper q))) t) = false →
      (jsTrim (jsUpper q)).isPrefixOf (jsUpper row.name) = false →
      containsSub (jsTrim (jsUpper q)) (jsUpper row.name) = false →
      scoreRow q row = 0) := by
  refine ⟨?_, ?_, ?_, ?_, ?_, ?_⟩
  · intro h1
    simp [scoreRow, h1]
  · intro h1 h2
    simp [scoreRow, h1, h2]
  · intro h1 h2 h3
    simp [scoreRow, h1, h2, h3]
  · intro h1 h2 h3 h4
    simp [scoreRow, h1, h2, h3, h4]
  · intro h1 h2 h3 h4 h5
    simp [scoreRow, h1, h2, h3, h4, h5]
  · intro h1 h2 h3 h4 h5
    simp [scoreRow, h1, h2, h3, h4, h5]

theorem le_pair_trans (a b c : Row × ℕ)
    (hab : decide (b.2 ≤ a.2) = true) (hbc : decide (c.2 ≤ b.2) = true) :
    decide (c.2 ≤ a.2) = true := by
  simp only [decide_eq_true_eq] at hab hbc ⊢
  omega

theorem le_pair_total (a b : Row × ℕ) :
    decide (b.2 ≤ a.2) = true ∨ decide (a.2 ≤ b.2) = true := by
  simp only [decide_eq_true_eq]
  omega

/-- C2. Ranked autocomplete: for a query of trimmed length at least two,
scoreRow follows the fixed tiered scoring table (100 exact plain-key
variant, 90 variant prefix, 75 variant substring, 65 name prefix, 50 name
substring, else 0), and the suggest result consists of rows of the index
with positive score, sorted descending by score, truncated to the clamped
limit, containing exactly the positive-score rows whenever they fit in
the limit; in particular a score-100 row always appears strictly before
any row scoring at most 65. -/
theorem suggest_ranked_scoring (q : Str) (limitParam : ℤ) (list : List Row)
    (h2 : 2 ≤ (jsTrim q).length) :
    (∀ row : Row,
      (plainFilter (jsTrim (jsUpper (jsTrim q))) ∈ (norms row.ticker).map plainFilter →
        scoreRow (jsTrim q) row = 100) ∧
      (plainFilter (jsTrim (jsUpper (jsTrim q))) ∉ (norms row.ticker).map plainFilter →
        ((norms row.ticker).map plainFilter).any
          (fun t => (plainFilter (jsTrim (jsUpper (jsTrim q)))).isPrefixOf t) = true →
        scoreRow (jsTrim q) row = 90)) ∧
    (∀ r ∈ suggestGET q limitParam list, r ∈ list ∧ 0 < scoreRow (jsTrim q) r) ∧
    (suggestGET q limitParam list).Pairwise
      (fun a b => scoreRow (jsTrim q) b ≤ scoreRow (jsTrim q) a) ∧
    (suggestGET q limitParam list).length
      = min (clampLimit limitParam)
          (list.filter (fun r => decide (0 < scoreRow (jsTrim q) r))).length ∧
    ((list.filter (fun r => decide (0 < scoreRow (jsTrim q) r))).length
        ≤ clampLimit limitParam →
      ∀ r, r ∈ suggestGET q limitParam list ↔ r ∈ list ∧ 0 < scoreRow (jsTrim q) r) ∧
    (∀ i j (hi : i < (suggestGET q limitParam list).length)
        (hj : j < (suggestGET q limitParam list).length),
      scoreRow (jsTrim q) ((suggestGET q limitParam list)[i]) = 100 →
      scoreRow (jsTrim q) ((suggestGET q limitParam list)[j]) ≤ 65 →
      i < j) := by
  have hne : jsTrim q ≠ [] := by
    intro h
    rw [h] at h2
    simp at h2
  have hlen : ¬ (jsUpper (jsTrim q)).length = 1 := by
    unfold jsUpper
    rw [List.length_map]
    omega
  have hres : suggestGET q limitParam list =
      ((sortLe (fun a b : Row × ℕ => decide (b.2 ≤ a.2))
        ((list.map (fun row => (row, scoreRow (jsTrim q) row))).filter
          (fun x => decide (0 < x.2)))).take (clampLimit limitParam)).map Prod.fst := by
    simp [suggestGET, hne, hlen]
  have hcomp : ((fun x : Row × ℕ => decide (0 < x.2))
      ∘ (fun row => (row, scoreRow (jsTrim q) row)))
      = (fun r => decide (0 < scoreRow (jsTrim q) r)) := rfl
  have hfm : (list.map (fun row => (row, scoreRow (jsTrim q) row))).filter
        (fun x => decide (0 < x.2))
      = (list.filter (fun r => decide (0 < scoreRow (jsTrim q) r))).map
        (fun row => (row, scoreRow (jsTrim q) row)) := by
    rw [List.filter_map, hcomp]
  have hinv : ∀ pr ∈ (sortLe (fun a b : Row × ℕ => decide (b.2 ≤ a.2))
      ((list.map (fun row => (row, scoreRow (jsTrim q) row))).filter
        (fun x => decide (0 < x.2)))).take (clampLimit limitParam),
      pr.2 = scoreRow (jsTrim q) pr.1 ∧ pr.1 ∈ list ∧ 0 < pr.2 := by
    intro pr hpr
    have h1 := List.take_subset _ _ hpr
    rw [mem_sortLe] at h1
    have h2 := List.mem_filter.mp h1
    rcases List.mem_map.mp h2.1 with ⟨r0, hr0, rfl⟩
    refine ⟨rfl, hr0, ?_⟩
    have := h2.2
    simpa using this
  refine ⟨fun row => ⟨(scoreTable (jsTrim q) row).1, (scoreTable (jsTrim q) row).2.1⟩,
    ?_, ?_, ?_, ?_, ?_⟩
  · intro r hr
    rw [hres] at hr
    rcases List.mem_map.mp hr with ⟨pr, hpr, rfl⟩
    rcases hinv pr hpr with ⟨hsc, hmem, hpos⟩
    rw [hsc] at hpos
    exact ⟨hmem, hpos⟩
  · rw [hres]
    have hsorted : ((sortLe (fun a b : Row × ℕ => decide (b.2 ≤ a.2))
        ((list.map (fun row => (row, scoreRow (jsTrim q) row))).filter
          (fun x => decide (0 < x.2)))).take (clampLimit limitParam)).Pairwise
        (fun a b => decide (b.2 ≤ a.2) = true) := by
      refine List.Pairwise.sublist (List.take_sublist _ _) ?_
      exact pairwise_sortLe (fun a b : Row × ℕ => decide (b.2 ≤ a.2))
        le_pair_trans le_pair_total _
    rw [List.pairwise_map]
    refine hsorted.imp_of_mem ?_
    intro a b ha hb hab
    rcases hinv a ha with ⟨hsa, _, _⟩
    rcases hinv b hb with ⟨hsb, _, _⟩
    rw [← hsa, ← hsb]
    simpa using hab
  · rw [hres]
    rw [List.length_map, List.length_take, length_sortLe, hfm, List.length_map]
  · intro hle r
    have hlensort : (sortLe (fun a b : Row × ℕ => decide (b.2 ≤ a.2))
        ((list.map (fun row => (row, scoreRow (jsTrim q) row))).filter
          (fun x => decide (0 < x.2)))).length
        = (list.filter (fun r => decide (0 < scoreRow (jsTrim q) r))).length := by
      rw [length_sortLe, hfm, List.length_map]
    have htake : (sortLe (fun a b : Row × ℕ => decide (b.2 ≤ a.2))
        ((list.map (fun row => (row, scoreRow (jsTrim q) row))).filter
          (fun x => decide (0 < x.2)))).take (clampLimit limitParam)
        = sortLe (fun a b : Row × ℕ => decide (b.2 ≤ a.2))
          ((list.map (fun row => (row, scoreRow (jsTrim q) row))).filter
            (fun x => decide (0 < x.2))) := by
      apply List.take_of_length_le
      rw [hlensort]
      exact hle
    rw [hres, htake]
    constructor
    · intro hr
      rcases List.mem_map.mp hr with ⟨pr, hpr, rfl⟩
      rw [mem_sortLe] at hpr
      have h2 := List.mem_filter.mp hpr
      rcases List.mem_map.mp h2.1 with ⟨r0, hr0, rfl⟩
      refine ⟨hr0, ?_⟩
      have := h2.2
      simpa using this
    · intro ⟨hrl, hrs⟩
      refine List.mem_map.mpr ⟨(r, scoreRow (jsTrim q) r), ?_, rfl⟩
      rw [mem_sortLe]
      refine List.mem_filter.mpr ⟨List.mem_map.mpr ⟨r, hrl, rfl⟩, ?_⟩
      simpa using hrs
  · intro i j hi hj hi100 hj65
    have hpw : (suggestGET q limitParam list).Pairwise
        (fun a b => scoreRow (jsTrim q) b ≤ scoreRow (jsTrim q) a) := by
      rw [hres]
      have hsorted : ((sortLe (fun a b : Row × ℕ => decide (b.2 ≤ a.2))
          ((list.map (fun row => (row, scoreRow (jsTrim q) row))).filter
            (fun x => decide (0 < x.2)))).take (clampLimit limitParam)).Pairwise
          (fun a b => decide (b.2 ≤ a.2) = true) := by
        refine List.Pairwise.sublist (List.take_sublist _ _) ?_
        exact pairwise_sortLe (fun a b : Row × ℕ => decide (b.2 ≤ a.2))
          le_pair_trans le_pair_total _
      rw [List.pairwise_map]
      refine hsorted.imp_of_mem ?_
      intro a b ha hb hab
      rcases hinv a ha with ⟨hsa, _, _⟩
      rcases hinv b hb with ⟨hsb, _, _⟩
      rw [← hsa, ← hsb]
      simpa using hab
    have hget := List.pairwise_iff_getElem.mp hpw
    by_contra hij
    push_neg at hij
    rcases Nat.lt_or_ge j i with hji | hji
    · have := hget j i hj hi hji
      omega
    · have hji2 : j = i := by omega
      subst hji2
      omega

/-- Witness for C2 at the query AAPL against listC2: the result length is
the number of positive-score rows capped by the clamped limit. -/
theorem suggest_ranked_scoring_witness :
    (suggestGET "AAPL".toList 50 listC2).length
      = min (clampLimit 50)
          (listC2.filter
            (fun r => decide (0 < scoreRow (jsTrim "AAPL".toList) r))).length :=
  (suggest_ranked_scoring "AAPL".toList 50 listC2 (by decide)).2.2.2.1

theorem dedupeFirstAux_spec (l : List Str) : ∀ seen,
    (dedupeFirstAux seen l).Nodup ∧ ∀ x ∈ dedupeFirstAux seen l, x ∉ seen := by
  induction l with
  | nil => intro seen; simp [dedupeFirstAux]
  | cons x xs ih =>
    intro seen
    unfold dedupeFirstAux
    split
    · exact ih seen
    · rename_i hx
      refine ⟨List.nodup_cons.mpr ⟨?_, (ih (x :: seen)).1⟩, ?_⟩
      · intro hmem
        exact (ih (x :: seen)).2 x hmem (by simp)
      · intro y hy
        rcases List.mem_cons.mp hy with rfl | hy
        · exact hx
        · intro hyseen
          exact (ih (x :: seen)).2 y hy (List.mem_cons_of_mem _ hyseen)

theorem dedupeFirst_nodup (l : List Str) : (dedupeFirst l).Nodup :=
  (dedupeFirstAux_spec l []).1

/-- C7 counterexample: in the text the code Item 1.01 appears twice, in
two letter cases; detectItems deduplicates the verbatim matched strings
only, so the code appears twice in items, contradicting the at-most-once
clause of the claim (and items holds the second occurrence verbatim, not
case-normalized). -/
theorem detect_items_counterexample :
    (detectItems "Item 1.01 ITEM 1.01".toList).1
      = ["Item 1.01".toList, "ITEM 1.01".toList] ∧
    ¬ ((detectItems "Item 1.01 ITEM 1.01".toList).1.countP
        (fun s => decide (jsLower s = "item 1.01".toList)) ≤ 1) := by decide

/-- C7 amended. detectItems never repeats a verbatim spelling in items
(the JS Set deduplication); on a text containing Item 1.01 and Item 5.02
once each it returns both codes as matched (kept in their original
letter case, not case-normalized) and both named badges, for any letter
case of the occurrences; a code repeated with the identical spelling is
collapsed to one entry, while distinct casings of one code remain
distinct entries. -/
theorem detect_items_amended :
    (∀ text : Str, (detectItems text).1.Nodup) ∧
    detectItems "Item 1.01 was signed. Item 5.02 applies.".toList
      = (["Item 1.01".toList, "Item 5.02".toList],
         ["Material Agreement (Item 1.01)".toList,
          "Executive Change (Item 5.02)".toList]) ∧
    detectItems "iTEM 1.01 and ITEM 5.02".toList
      = (["iTEM 1.01".toList, "ITEM 5.02".toList],
         ["Material Agreement (Item 1.01)".toList,
          "Executive Change (Item 5.02)".toList]) ∧
    (detectItems "Item 1.01 Item 1.01".toList).1 = ["Item 1.01".toList] := by
  refine ⟨?_, by decide, by decide, by decide⟩
  intro text
  exact dedupeFirst_nodup _

theorem amtFold_some (l : List AmtMatch) : ∀ x : ℚ,
    ∃ v, l.foldl amtFoldStep (some x) = some v ∧ x ≤ v ∧
      (∀ u ∈ l.map amtValue, u ≤ v) ∧ (v = x ∨ v ∈ l.map amtValue) := by
  induction l with
  | nil =>
    intro x
    exact ⟨x, rfl, le_refl x, by simp, Or.inl rfl⟩
  | cons mt ms ih =>
    intro x
    have hstep : amtFoldStep (some x) mt
        = some (if x < amtValue mt then amtValue mt else x) := by
      unfold amtFoldStep
      by_cases h : x < amtValue mt <;> simp [h]
    rcases ih (if x < amtValue mt then amtValue mt else x) with ⟨v, hfold, hy, hall, hor⟩
    refine ⟨v, ?_, ?_, ?_, ?_⟩
    · rw [List.foldl_cons, hstep]
      exact hfold
    · refine le_trans ?_ hy
      split
      · rename_i h; exact le_of_lt h
      · exact le_refl x
    · intro u hu
      rcases List.mem_map.mp hu with ⟨mt0, hmt0, rfl⟩
      rcases List.mem_cons.mp hmt0 with rfl | hmt0
      · refine le_trans ?_ hy
        split
        · exact le_refl _
        · rename_i h; exact le_of_not_lt h
      · exact hall _ (List.mem_map.mpr ⟨mt0, hmt0, rfl⟩)
    · rcases hor with rfl | hv
      · split
        · exact Or.inr (by simp)
        · exact Or.inl rfl
      · exact Or.inr (List.mem_cons_of_mem _ (by simpa using hv))

/-- C8. Amount extraction: the extractor returns null exactly when the
scan finds no monetary match, and otherwise the maximum of the
normalized values of all matches (each scaled by 1e6 or 1e9 per its
scale word); on the three-amount sample text it returns exactly one
billion. -/
theorem extract_largest_amount_max (text : Str) :
    (extractLargestAmount text = none ↔ scanAmts text.length text = []) ∧
    (∀ v, extractLargestAmount text = some v →
      v ∈ (scanAmts text.length text).map amtValue ∧
      ∀ u ∈ (scanAmts text.length text).map amtValue, u ≤ v) ∧
    extractLargestAmount
        "The deal raised $2.5 million, then $10,000,000, then $1 billion.".toList
      = some 1000000000 := by
  refine ⟨?_, ?_, by decide⟩
  · unfold extractLargestAmount
    cases hscan : scanAmts text.length text with
    | nil => simp
    | cons mt ms =>
      rw [List.foldl_cons]
      have hstep : amtFoldStep none mt = some (amtValue mt) := rfl
      rw [hstep]
      rcases amtFold_some ms (amtValue mt) with ⟨v, hfold, _, _, _⟩
      rw [hfold]
      simp
  · intro v hv
    unfold extractLargestAmount at hv
    cases hscan : scanAmts text.length text with
    | nil =>
      rw [hscan] at hv
      cases hv
    | cons mt ms =>
      rw [hscan, List.foldl_cons] at hv
      have hstep : amtFoldStep none mt = some (amtValue mt) := rfl
      rw [hstep] at hv
      rcases amtFold_some ms (amtValue mt) with ⟨v0, hfold, hx, hall, hor⟩
      rw [hfold] at hv
      injection hv with hv
      subst hv
      constructor
      · rcases hor with rfl | hv0
        · exact List.mem_map.mpr ⟨mt, by simp, rfl⟩
        · rcases List.mem_map.mp hv0 with ⟨mt0, hmt0, rfl⟩
          exact List.mem_map.mpr ⟨mt0, List.mem_cons_of_mem _ hmt0, rfl⟩
      · intro u hu
        rcases List.mem_map.mp hu with ⟨mt0, hmt0, rfl⟩
        rcases List.mem_cons.mp hmt0 with rfl | hmt0
        · exact hx
        · exact hall _ (List.mem_map.mpr ⟨mt0, hmt0, rfl⟩)

/-- Witness for C8 at the sample text: one billion is a normalized match
value and dominates every other normalized match. -/
theorem extract_largest_amount_max_witness :
    (1000000000 : ℚ)
      ∈ (scanAmts
          "The deal raised $2.5 million, then $10,000,000, then $1 billion.".toList.length
          "The deal raised $2.5 million, then $10,000,000, then $1 billion.".toList).map
        amtValue ∧
    ∀ u ∈ (scanAmts
          "The deal raised $2.5 million, then $10,000,000, then $1 billion.".toList.length
          "The deal raised $2.5 million, then $10,000,000, then $1 billion.".toList).map
        amtValue, u ≤ 1000000000 :=
  (extract_largest_amount_max
      "The deal raised $2.5 million, then $10,000,000, then $1 billion.".toList).2.1
    1000000000
    (extract_largest_amount_max
      "The deal raised $2.5 million, then $10,000,000, then $1 billion.".toList).2.2

theorem processFiling_fetchFail (cikParam name : Str) (f : FilingInput)
    (h : f.fetch = FetchOutcome.netFail ∨ f.fetch = FetchOutcome.notOk) :
    processFiling cikParam name f = unenrichedRecord cikParam name f := by
  unfold processFiling unenrichedRecord
  cases hp : f.primaryDocument with
  | none => simp [hp]
  | some p =>
    rcases h with hf | hf <;>
      simp [hp, hf] <;>
      split <;> rfl

/-- C9. Degraded enrichment isolation: the output has one record per
filing in order; a filing whose primary-document fetch fails (network
error or non-ok status) yields the same record with empty items, empty
badges and an unset amount; and replacing that filing by any other input
leaves every sibling record of the batch unchanged — the failure never
propagates. -/
theorem enrichment_degraded_isolation (cikParam name : Str)
    (filings : List FilingInput) (i : ℕ) (hi : i < filings.length)
    (hfail : (filings.get ⟨i, hi⟩).fetch = FetchOutcome.netFail ∨
      (filings.get ⟨i, hi⟩).fetch = FetchOutcome.notOk) :
    (processFilings cikParam name filings).length = filings.length ∧
    (∀ j (hj : j < filings.length),
      (processFilings cikParam name filings)[j]?
        = some (processFiling cikParam name (filings.get ⟨j, hj⟩))) ∧
    (processFilings cikParam name filings)[i]?
      = some (unenrichedRecord cikParam name (filings.get ⟨i, hi⟩)) ∧
    (∀ g : FilingInput, ∀ j, j ≠ i →
      (processFilings cikParam name (filings.set i g))[j]?
        = (processFilings cikParam name filings)[j]?) := by
  refine ⟨List.length_map _ _, ?_, ?_, ?_⟩
  · intro j hj
    unfold processFilings
    rw [List.getElem?_map, List.getElem?_eq_getElem hj]
    simp
  · unfold processFilings
    rw [List.getElem?_map, List.getElem?_eq_getElem hi]
    have hx := processFiling_fetchFail cikParam name (filings.get ⟨i, hi⟩) hfail
    rw [List.get_eq_getElem] at hx
    simp [hx]
  · intro g j hji
    unfold processFilings
    rw [List.getElem?_map, List.getElem?_map, List.getElem?_set_ne (fun h => hji h.symm)]

/-- Witness for C9 at the concrete batch: both records are produced in
order and the failed filing comes back unenriched. -/
theorem enrichment_degraded_isolation_witness :
    (processFilings "320193".toList "APPLE".toList filingsC9).length
        = filingsC9.length ∧
    (processFilings "320193".toList "APPLE".toList filingsC9)[0]?
      = some (unenrichedRecord "320193".toList "APPLE".toList
          (filingsC9.get ⟨0, by decide⟩)) := by
  have h := enrichment_degraded_isolation "320193".toList "APPLE".toList
    filingsC9 0 (by decide) (Or.inl rfl)
  exact ⟨h.1, h.2.2.1⟩

end Edgar

